import Mathlib

/-!
Verification of the CSS-selector builder, `Rectangle`, and the JSON helpers of
`src/05-objects-tasks.js`, via a shallow embedding of the JavaScript source.

JavaScript strings become Lean `String`s; `String.prototype.includes` becomes a
substring (infix) test; JavaScript string truthiness (`if (this.value)`) becomes
a non-emptiness test; a method that `throw`s becomes a function into `Except`.
-/

/-- The two error messages of `CssClass`: `err1` ("Element, id and pseudo-element
should not occur more then one time inside the selector", the duplicate error)
and `err2` ("Selector parts should be arranged in the following order: ...",
the ordering error). -/
inductive CssErr where
  | duplicate
  | order
deriving DecidableEq

/-- Embedding of the `CssClass` instances: `value` is the accumulated selector
text, `elem` the `this.elem` flag (set only by the `cssSelectorBuilder.element`
starter). -/
structure CssClass where
  value : String
  elem : Bool
deriving DecidableEq

/-- JavaScript `haystack.includes(needle)`: substring search. -/
def jsIncludes (s sub : String) : Bool := decide (sub.data <:+: s.data)

/-- Method `CssClass.element(val)`: `if (this.elem) throw err1; if (this.value)
throw err2; return new CssClass(this.value + val, this.elem);`. -/
def CssClass.element (c : CssClass) (val : String) : Except CssErr CssClass :=
  if c.elem then .error .duplicate
  else if c.value ≠ "" then .error .order
  else .ok ⟨c.value ++ val, c.elem⟩

/-- Method `CssClass.id(val)`: duplicate check is `value.includes('#')`, order
check is `includes('.') || includes('[') || includes(':') || includes('::')`. -/
def CssClass.id (c : CssClass) (val : String) : Except CssErr CssClass :=
  if jsIncludes c.value "#" then .error .duplicate
  else if jsIncludes c.value "." || jsIncludes c.value "[" || jsIncludes c.value ":"
      || jsIncludes c.value "::" then .error .order
  else .ok ⟨c.value ++ "#" ++ val, c.elem⟩

/-- Method `CssClass.class(val)` (renamed `cls`: `class` is a Lean keyword):
order check is `includes('[') || includes(':') || includes('::')`. -/
def CssClass.cls (c : CssClass) (val : String) : Except CssErr CssClass :=
  if jsIncludes c.value "[" || jsIncludes c.value ":" || jsIncludes c.value "::" then
    .error .order
  else .ok ⟨c.value ++ "." ++ val, c.elem⟩

/-- Method `CssClass.attr(val)`: order check is `includes(':') || includes('::')`. -/
def CssClass.attr (c : CssClass) (val : String) : Except CssErr CssClass :=
  if jsIncludes c.value ":" || jsIncludes c.value "::" then .error .order
  else .ok ⟨c.value ++ "[" ++ val ++ "]", c.elem⟩

/-- Method `CssClass.pseudoClass(val)`: order check is `includes('::')`. -/
def CssClass.pseudoClass (c : CssClass) (val : String) : Except CssErr CssClass :=
  if jsIncludes c.value "::" then .error .order
  else .ok ⟨c.value ++ ":" ++ val, c.elem⟩

/-- Method `CssClass.pseudoElement(val)`: duplicate check is `includes('::')`. -/
def CssClass.pseudoElement (c : CssClass) (val : String) : Except CssErr CssClass :=
  if jsIncludes c.value "::" then .error .duplicate
  else .ok ⟨c.value ++ "::" ++ val, c.elem⟩

/-- Method `CssClass.stringify()`: returns the accumulated text. -/
def CssClass.stringify (c : CssClass) : String := c.value

/-- Starter `cssSelectorBuilder.element(value)`: `new CssClass(value, true)` —
the only starter passing `true` for the `elem` flag. -/
def cssSelectorBuilder.element (value : String) : CssClass := ⟨value, true⟩

/-- Starter `cssSelectorBuilder.id(value)`: `new CssClass('#' + value)`. -/
def cssSelectorBuilder.id (value : String) : CssClass := ⟨"#" ++ value, false⟩

/-- Starter `cssSelectorBuilder.class(value)`: `new CssClass('.' + value)`. -/
def cssSelectorBuilder.cls (value : String) : CssClass := ⟨"." ++ value, false⟩

/-- Starter `cssSelectorBuilder.attr(value)`: `new CssClass('[' + value + ']')`. -/
def cssSelectorBuilder.attr (value : String) : CssClass := ⟨"[" ++ value ++ "]", false⟩

/-- Starter `cssSelectorBuilder.pseudoClass(value)`: `new CssClass(':' + value)`. -/
def cssSelectorBuilder.pseudoClass (value : String) : CssClass := ⟨":" ++ value, false⟩

/-- Starter `cssSelectorBuilder.pseudoElement(value)`: `new CssClass('::' + value)`. -/
def cssSelectorBuilder.pseudoElement (value : String) : CssClass := ⟨"::" ++ value, false⟩

/-- `cssSelectorBuilder.combine(s1, comb, s2)`: a new `CssClass` over the text
`s1.stringify() + ' ' + comb + ' ' + s2.stringify()`; the `el` constructor
argument is omitted in the source, so it defaults to `false`. -/
def cssSelectorBuilder.combine (s1 : CssClass) (comb : String) (s2 : CssClass) : CssClass :=
  ⟨s1.stringify ++ " " ++ comb ++ " " ++ s2.stringify, false⟩

/-- One chaining step on a fragment: the six append methods plus combining with
another already-built fragment. -/
inductive BuildStep where
  | element (val : String)
  | id (val : String)
  | cls (val : String)
  | attr (val : String)
  | pseudoClass (val : String)
  | pseudoElement (val : String)
  | combineWith (comb : String) (other : CssClass)

/-- Apply one step to a receiver fragment, as the source methods do. -/
def applyStep (c : CssClass) : BuildStep → Except CssErr CssClass
  | .element v => c.element v
  | .id v => c.id v
  | .cls v => c.cls v
  | .attr v => c.attr v
  | .pseudoClass v => c.pseudoClass v
  | .pseudoElement v => c.pseudoElement v
  | .combineWith comb other => .ok (cssSelectorBuilder.combine c comb other)

/-- A step executed against the world of previously created fragments: on
success the newly constructed fragment is the only addition to the world; on a
thrown error nothing is created. This mirrors the source, whose methods only
ever call `new CssClass(...)` and never assign to an existing object. -/
def runStep (w : List CssClass) (c : CssClass) (s : BuildStep) :
    List CssClass × Option CssClass :=
  match applyStep c s with
  | .ok c' => (w ++ [c'], some c')
  | .error _ => (w, none)

/-- Embedding of the `Rectangle` constructor function: fields `width`, `height`
and the closure `getArea`. Numbers stay abstract as `Float`, matching the
JavaScript number type; only definitional facts are proved about them. -/
structure Rectangle where
  width : Float
  height : Float

/-- Method `getArea`: `() => this.height * this.width`. -/
def Rectangle.getArea (r : Rectangle) : Float := r.height * r.width

/-- Modelled from the spec: the structured-data values handled by
`serialize`/`deserialize` — "arbitrary nesting of primitives, ordered
sequences, and key-value mappings with string keys", keys kept "in the
mapping's own iteration order" (hence a list of pairs). `JSON.stringify` and
`JSON.parse` are JavaScript builtins, not code of this repository, so the
encoding is modelled from the spec's "standard textual encoding rules";
numbers are embedded as integers, whose textual encoding is exact
(floating-point formatting is outside the embedding). -/
inductive JVal where
  | jnull
  | jbool (b : Bool)
  | jnum (n : Int)
  | jstr (s : String)
  | jarr (xs : List JVal)
  | jobj (fields : List (String × JVal))

/-- Decimal digit character for `n < 10` (`n ≥ 9` maps to `9`). -/
def digitChar10 (n : Nat) : Char :=
  match n with
  | 0 => '0' | 1 => '1' | 2 => '2' | 3 => '3' | 4 => '4'
  | 5 => '5' | 6 => '6' | 7 => '7' | 8 => '8' | _ => '9'

/-- Lowercase hex digit character for `n < 16` (`n ≥ 15` maps to `f`). -/
def hexChar16 (n : Nat) : Char :=
  match n with
  | 0 => '0' | 1 => '1' | 2 => '2' | 3 => '3' | 4 => '4'
  | 5 => '5' | 6 => '6' | 7 => '7' | 8 => '8' | 9 => '9'
  | 10 => 'a' | 11 => 'b' | 12 => 'c' | 13 => 'd' | 14 => 'e' | _ => 'f'

/-- Decimal digits of `n`, least significant first (`[]` for `0`). -/
def natDigitsRev (n : Nat) : List Char :=
  if h : n = 0 then [] else digitChar10 (n % 10) :: natDigitsRev (n / 10)
termination_by n
decreasing_by exact Nat.div_lt_self (Nat.pos_of_ne_zero h) (by decide)

/-- Standard decimal encoding of a natural number. -/
def encNat (n : Nat) : List Char := if n = 0 then ['0'] else (natDigitsRev n).reverse

/-- Standard decimal encoding of an integer. -/
def encInt (i : Int) : List Char :=
  if i < 0 then '-' :: encNat i.natAbs else encNat i.toNat

/-- JSON escaping of one character: `"` and `\` get a backslash, control
characters (code point below 32) are written `\u00XX`, everything else is
verbatim. -/
def escChar (c : Char) : List Char :=
  if c = '"' then ['\\', '"']
  else if c = '\\' then ['\\', '\\']
  else if c.toNat < 32 then
    ['\\', 'u', '0', '0', hexChar16 (c.toNat / 16), hexChar16 (c.toNat % 16)]
  else [c]

/-- JSON encoding of a string: quoted, characters escaped. -/
def encStr (s : String) : List Char := '"' :: (s.data.flatMap escChar ++ ['"'])

mutual

/-- Modelled from the spec: `serialize` — the standard textual (JSON) encoding
of a value. -/
def encVal : JVal → List Char
  | .jnull => ['n', 'u', 'l', 'l']
  | .jbool true => ['t', 'r', 'u', 'e']
  | .jbool false => ['f', 'a', 'l', 's', 'e']
  | .jnum i => encInt i
  | .jstr s => encStr s
  | .jarr xs => '[' :: (encList xs ++ [']'])
  | .jobj fs => '\x7b' :: (encFields fs ++ ['\x7d'])

/-- Comma-separated encoding of a sequence's elements. -/
def encList : List JVal → List Char
  | [] => []
  | [x] => encVal x
  | x :: y :: t => encVal x ++ ',' :: encList (y :: t)

/-- Comma-separated encoding of a mapping's `"key":value` entries, in the
mapping's own iteration order. -/
def encFields : List (String × JVal) → List Char
  | [] => []
  | [(k, v)] => encStr k ++ ':' :: encVal v
  | (k, v) :: g :: t => encStr k ++ ':' :: encVal v ++ ',' :: encFields (g :: t)

end

mutual

/-- Fuel needed by `decVal` to parse the encoding of a value. -/
def sizeV : JVal → Nat
  | .jnull => 1
  | .jbool _ => 1
  | .jnum _ => 1
  | .jstr _ => 1
  | .jarr xs => 1 + sizeE xs
  | .jobj fs => 1 + sizeF fs

/-- Fuel needed by `decElems` to parse an encoded element list. -/
def sizeE : List JVal → Nat
  | [] => 1
  | [x] => 1 + sizeV x
  | x :: y :: t => 1 + max (sizeV x) (sizeE (y :: t))

/-- Fuel needed by `decFields` to parse an encoded field list. -/
def sizeF : List (String × JVal) → Nat
  | [] => 1
  | [(_, v)] => 1 + sizeV v
  | (_, v) :: g :: t => 1 + max (sizeV v) (sizeF (g :: t))

end

/-- Value of a hex digit character (lowercase letters). -/
def hexVal (c : Char) : Option Nat :=
  if c.isDigit then some (c.toNat - 48)
  else if 'a' ≤ c ∧ c ≤ 'f' then some (c.toNat - 87)
  else none

/-- Consume an expected literal run of characters. -/
def matchLit : List Char → List Char → Option (List Char)
  | [], l => some l
  | _ :: _, [] => none
  | p :: ps, c :: cs => if c = p then matchLit ps cs else none

/-- Parse the body of a JSON string up to (and consuming) the closing quote,
undoing `escChar`. -/
def decChars : List Char → Option (List Char × List Char)
  | [] => none
  | c :: rest =>
    if c = '"' then some ([], rest)
    else if c = '\\' then
      match rest with
      | [] => none
      | e :: rest2 =>
        if e = '"' then (decChars rest2).map (fun p => ('"' :: p.1, p.2))
        else if e = '\\' then (decChars rest2).map (fun p => ('\\' :: p.1, p.2))
        else if e = 'u' then
          match rest2 with
          | d1 :: d2 :: d3 :: d4 :: rest3 =>
            match hexVal d1, hexVal d2, hexVal d3, hexVal d4 with
            | some h1, some h2, some h3, some h4 =>
              (decChars rest3).map
                (fun p => (Char.ofNat (((h1 * 16 + h2) * 16 + h3) * 16 + h4) :: p.1, p.2))
            | _, _, _, _ => none
          | _ => none
        else none
    else (decChars rest).map (fun p => (c :: p.1, p.2))

/-- Consume a run of decimal digits, accumulating their value onto `acc`. -/
def decDigits : List Char → Nat → Nat × List Char
  | [], acc => (acc, [])
  | c :: rest, acc =>
    if c.isDigit then decDigits rest (acc * 10 + (c.toNat - 48)) else (acc, c :: rest)

/-- Parse an (optionally negative) decimal integer. -/
def decNum : List Char → Option (Int × List Char)
  | [] => none
  | c :: rest =>
    if c = '-' then
      match rest with
      | [] => none
      | d :: rest2 =>
        if d.isDigit then
          some (-(((decDigits rest2 (d.toNat - 48)).1 : Nat) : Int),
            (decDigits rest2 (d.toNat - 48)).2)
        else none
    else if c.isDigit then
      some ((((decDigits rest (c.toNat - 48)).1 : Nat) : Int),
        (decDigits rest (c.toNat - 48)).2)
    else none

mutual

/-- Modelled from the spec: the parsing half of `deserialize` — a recursive
descent JSON parser (fuelled to make termination structural). -/
def decVal : Nat → List Char → Option (JVal × List Char)
  | 0, _ => none
  | _ + 1, [] => none
  | f + 1, c :: rest =>
    if c = 'n' then
      match matchLit ['u', 'l', 'l'] rest with
      | some r => some (.jnull, r)
      | none => none
    else if c = 't' then
      match matchLit ['r', 'u', 'e'] rest with
      | some r => some (.jbool true, r)
      | none => none
    else if c = 'f' then
      match matchLit ['a', 'l', 's', 'e'] rest with
      | some r => some (.jbool false, r)
      | none => none
    else if c = '"' then
      match decChars rest with
      | some (l, r) => some (.jstr ⟨l⟩, r)
      | none => none
    else if c = '[' then
      match decElems f rest with
      | some (xs, r) => some (.jarr xs, r)
      | none => none
    else if c = '\x7b' then
      match decFields f rest with
      | some (fs, r) => some (.jobj fs, r)
      | none => none
    else
      match decNum (c :: rest) with
      | some (i, r) => some (.jnum i, r)
      | none => none

/-- Parse the elements of a JSON array after the opening bracket, consuming the
closing bracket. -/
def decElems : Nat → List Char → Option (List JVal × List Char)
  | 0, _ => none
  | _ + 1, [] => none
  | f + 1, c :: rest =>
    if c = ']' then some ([], rest)
    else
      match decVal f (c :: rest) with
      | none => none
      | some (v, r2) =>
        match r2 with
        | [] => none
        | d :: rest2 =>
          if d = ',' then (decElems f rest2).map (fun p => (v :: p.1, p.2))
          else if d = ']' then some ([v], rest2)
          else none

/-- Parse the fields of a JSON object after the opening brace, consuming the
closing brace. -/
def decFields : Nat → List Char → Option (List (String × JVal) × List Char)
  | 0, _ => none
  | _ + 1, [] => none
  | f + 1, c :: rest =>
    if c = '\x7d' then some ([], rest)
    else if c = '"' then
      match decChars rest with
      | none => none
      | some (kl, r2) =>
        match r2 with
        | [] => none
        | d :: r3 =>
          if d = ':' then
            match decVal f r3 with
            | none => none
            | some (v, r4) =>
              match r4 with
              | [] => none
              | e :: r5 =>
                if e = ',' then (decFields f r5).map (fun p => ((⟨kl⟩, v) :: p.1, p.2))
                else if e = '\x7d' then some ([(⟨kl⟩, v)], r5)
                else none
          else none
    else none

end

/-- Modelled from the spec: parse a whole JSON text (the fuel `length + 1`
always suffices, as proved below). -/
def parseJSON (s : String) : Option JVal :=
  match decVal (s.length + 1) s.data with
  | some (v, []) => some v
  | _ => none

/-- `getJSON(obj)`: `JSON.stringify(obj)`, with the stringify builtin modelled
from the spec as the standard encoding `encVal`. -/
def getJSON (v : JVal) : String := ⟨encVal v⟩

/-- Failure of `JSON.parse` on invalid text (spec error taxonomy: `ParseError`). -/
inductive ParseErr where
  | parseError

/-- Modelled from the spec: a parsed value "exposing the given capability set"
— plain parsed data associated with a named bundle of behaviors (the source
attaches `proto` via `Object.setPrototypeOf`). -/
structure ProtoObj (P : Type) where
  proto : P
  data : JVal

/-- `fromJSON(proto, json)`: `Object.setPrototypeOf(JSON.parse(json), proto)`,
with the parse builtin modelled from the spec; invalid text yields `ParseError`. -/
def fromJSON {P : Type} (proto : P) (json : String) : Except ParseErr (ProtoObj P) :=
  match parseJSON json with
  | some v => .ok ⟨proto, v⟩
  | none => .error .parseError

/-- The head of the unconsumed input is not a decimal digit (so a parsed
number cannot swallow it). -/
def noDigitHead : List Char → Prop
  | [] => True
  | c :: _ => c.isDigit = false

/-- One step of decimal-digit accumulation. -/
def digStep (a : Nat) (c : Char) : Nat := a * 10 + (c.toNat - 48)

/-- Appending strings appends their character data. -/
theorem string_data_append (a b : String) : (a ++ b).data = a.data ++ b.data := by
  cases a; cases b; rfl

/-- C1: every append operation and combine is non-mutating and free of partial
failure: executed against the world `w` of previously created fragments, a step
either succeeds and extends the world by exactly the one new fragment, or fails
and leaves the world exactly as it was — previously created fragments are
untouched either way. -/
theorem claim_C1 : ∀ (w : List CssClass) (c : CssClass) (s : BuildStep),
    runStep w c s = (w ++ (applyStep c s).toOption.toList, (applyStep c s).toOption) := by
  intro w c s
  unfold runStep
  cases applyStep c s <;> simp [Except.toOption]

/-- C2 (counterexample): on the fragment created by the pseudo-element starter,
appending a tag fails with the ordering error, not the duplicate error. -/
theorem claim_C2_cex :
    (cssSelectorBuilder.pseudoElement "after").element "div" = Except.error CssErr.order
    ∧ (cssSelectorBuilder.pseudoElement "after").element "div"
      ≠ Except.error CssErr.duplicate := by
  constructor
  · rfl
  · intro h
    rw [show (cssSelectorBuilder.pseudoElement "after").element "div"
        = Except.error CssErr.order from rfl] at h
    simp at h

/-- C2 (amended): on any fragment whose text already contains a pseudo-element
segment (the substring `::`), appending a tag always fails — with
`DuplicateSegmentError` when the tag-present flag `elem` is set, and otherwise
(in particular on a fragment created by the pseudo-element starter) with
`SegmentOrderError`, because the accumulated text is non-empty. -/
theorem claim_C2 : ∀ (c : CssClass) (val : String), jsIncludes c.value "::" = true →
    c.element val = Except.error (if c.elem then CssErr.duplicate else CssErr.order) := by
  intro c val h
  unfold CssClass.element
  by_cases he : c.elem
  · simp [he]
  · have hne : c.value ≠ "" := by
      intro h0
      rw [jsIncludes, h0] at h
      exact absurd (of_decide_eq_true h) (by simp)
    simp [he, hne]

/-- C2 (witness): the amended claim applied to the pseudo-element starter. -/
theorem claim_C2_witness :
    jsIncludes (cssSelectorBuilder.pseudoElement "x").value "::" = true
    ∧ (cssSelectorBuilder.pseudoElement "x").element "div"
      = Except.error (if (cssSelectorBuilder.pseudoElement "x").elem
          then CssErr.duplicate else CssErr.order) :=
  ⟨by decide, claim_C2 _ "div" (by decide)⟩

/-- C3 (counterexample): a fragment built from a single class segment whose
class name contains a colon — no attribute, pseudo-class or pseudo-element
segment present — still rejects a further class append with the ordering
error, refuting "it always succeeds on a fragment built only from tag, id,
and class segments, whatever characters the class names contain". -/
theorem claim_C3_cex :
    (cssSelectorBuilder.cls "a:b").cls "c" = Except.error CssErr.order := by
  rfl

/-- C3 (amended): appending a class fails, always with `SegmentOrderError`,
exactly when the accumulated text contains the character `[` or the character
`:` (substring search, not per-category state); so it succeeds on fragments
built only from tag, id and class segments provided none of their tokens
contains `[` or `:`. -/
theorem claim_C3 : ∀ (c : CssClass) (val : String),
    c.cls val = if jsIncludes c.value "[" = true ∨ jsIncludes c.value ":" = true
      then Except.error CssErr.order
      else Except.ok ⟨c.value ++ "." ++ val, c.elem⟩ := by
  intro c val
  have hco : jsIncludes c.value "::" = true → jsIncludes c.value ":" = true := by
    intro h
    apply decide_eq_true
    exact List.IsInfix.trans (by decide) (of_decide_eq_true h)
  unfold CssClass.cls
  cases hb : jsIncludes c.value "[" <;> cases hc : jsIncludes c.value ":" <;>
    cases hcc : jsIncludes c.value "::" <;> simp_all

/-- C4: `combine` renders as the left rendering, a space, the operator, a
space, and the right rendering, for every operator string; the worked example
`combine(byTag('div').id('main'), '+', byTag('p'))` renders `"div#main + p"`;
and the descendant combinator (a single space) joins the two renderings by
exactly three consecutive spaces. -/
theorem claim_C4 :
    (∀ (s1 s2 : CssClass) (op : String),
      (cssSelectorBuilder.combine s1 op s2).stringify
        = s1.stringify ++ " " ++ op ++ " " ++ s2.stringify)
    ∧ (Except.map
        (fun l => (cssSelectorBuilder.combine l "+" (cssSelectorBuilder.element "p")).stringify)
        ((cssSelectorBuilder.element "div").id "main") = Except.ok "div#main + p")
    ∧ (∀ (a b : CssClass), (cssSelectorBuilder.combine a " " b).stringify
        = a.stringify ++ "   " ++ b.stringify) := by
  refine ⟨fun s1 s2 op => rfl, by rfl, fun a b => ?_⟩
  show a.stringify ++ " " ++ " " ++ " " ++ b.stringify = a.stringify ++ "   " ++ b.stringify
  refine String.ext ?_
  have hsp : (" " : String).data = [' '] := rfl
  have hsp3 : ("   " : String).data = [' ', ' ', ' '] := rfl
  simp [string_data_append, hsp, hsp3]

/-- C5: the two worked chains render exactly as specified, and each starter
prefixes its token with `#`, `.`, `[...]`, `:`, `::` as appropriate (the tag
starter adds no prefix). -/
theorem claim_C5 :
    ((((cssSelectorBuilder.id "main").cls "container").bind
        (fun f => f.cls "editable")).map CssClass.stringify
      = Except.ok "#main.container.editable")
    ∧ ((((cssSelectorBuilder.element "a").attr "href$=\".png\"").bind
        (fun f => f.pseudoClass "focus")).map CssClass.stringify
      = Except.ok "a[href$=\".png\"]:focus")
    ∧ (∀ v : String,
        (cssSelectorBuilder.element v).stringify = v
        ∧ (cssSelectorBuilder.id v).stringify = "#" ++ v
        ∧ (cssSelectorBuilder.cls v).stringify = "." ++ v
        ∧ (cssSelectorBuilder.attr v).stringify = "[" ++ v ++ "]"
        ∧ (cssSelectorBuilder.pseudoClass v).stringify = ":" ++ v
        ∧ (cssSelectorBuilder.pseudoElement v).stringify = "::" ++ v) :=
  ⟨by rfl, by rfl, fun v => ⟨rfl, rfl, rfl, rfl, rfl, rfl⟩⟩

/-- C6: on any fragment whose tag-present flag `elem` is set — the flag that
only the tag starter sets and every append propagates — appending a second tag
fails with `DuplicateSegmentError`. -/
theorem claim_C6 : ∀ (c : CssClass) (val : String), c.elem = true →
    c.element val = Except.error CssErr.duplicate := by
  intro c val h
  unfold CssClass.element
  simp [h]

/-- C6 (witness): the claim applied to the tag starter. -/
theorem claim_C6_witness :
    (cssSelectorBuilder.element "div").elem = true
    ∧ (cssSelectorBuilder.element "div").element "p" = Except.error CssErr.duplicate :=
  ⟨rfl, claim_C6 _ "p" rfl⟩

/-- C8: the `Rectangle` constructor stores its two arguments in the `width` and
`height` fields, and `getArea()` returns `height * width`. -/
theorem claim_C8 : ∀ (w h : Float),
    (Rectangle.mk w h).width = w
    ∧ (Rectangle.mk w h).height = h
    ∧ (Rectangle.mk w h).getArea = (Rectangle.mk w h).height * (Rectangle.mk w h).width :=
  fun _ _ => ⟨rfl, rfl, rfl⟩

/-- C9: `combine` is total — it returns a fragment for every operator string —
the combined fragment's tag-present flag is always unset, and appending a tag
to a combined fragment reports the ordering error (its text is non-empty),
never the duplicate-tag error. -/
theorem claim_C9 : ∀ (s1 s2 : CssClass) (comb val : String),
    (cssSelectorBuilder.combine s1 comb s2).elem = false
    ∧ (cssSelectorBuilder.combine s1 comb s2).element val = Except.error CssErr.order
    ∧ (cssSelectorBuilder.combine s1 comb s2).element val
      ≠ Except.error CssErr.duplicate := by
  intro s1 s2 comb val
  have hlen : (" " : String).length = 1 := rfl
  have hlen0 : ("" : String).length = 0 := rfl
  have hne : s1.stringify ++ " " ++ comb ++ " " ++ s2.stringify ≠ "" := by
    intro h
    have hl := congrArg String.length h
    simp only [String.length_append, hlen, hlen0] at hl
    omega
  have ho : (cssSelectorBuilder.combine s1 comb s2).element val = Except.error CssErr.order := by
    unfold CssClass.element cssSelectorBuilder.combine
    simp [hne]
  refine ⟨rfl, ho, ?_⟩
  rw [ho]
  simp

/-- C10: duplicate-id detection is a substring search for `#`, so on the
fragment built from the single tag token `a#b` — which contains no id segment —
appending an id fails with `DuplicateSegmentError`. -/
theorem claim_C10 :
    (cssSelectorBuilder.element "a#b").stringify = "a#b"
    ∧ (cssSelectorBuilder.element "a#b").id "x" = Except.error CssErr.duplicate :=
  ⟨rfl, by rfl⟩

/-- A `String` is its character data. -/
theorem string_mk_data (s : String) : String.mk s.data = s := by
  cases s; rfl

/-- A digit character differs from any non-digit character. -/
theorem isDigit_ne {c : Char} (t : Char) (h : c.isDigit = true) (ht : t.isDigit = false) :
    c ≠ t := by
  intro he
  subst he
  rw [h] at ht
  exact Bool.noConfusion ht

/-- The characters produced by `digitChar10` on `n < 10` are digits. -/
theorem digitChar10_isDigit (m : Nat) (h : m < 10) : (digitChar10 m).isDigit = true := by
  interval_cases m <;> decide

/-- Code point of `digitChar10 m` for `m < 10`. -/
theorem digitChar10_toNat (m : Nat) (h : m < 10) : (digitChar10 m).toNat = 48 + m := by
  interval_cases m <;> decide

/-- `hexVal` inverts `hexChar16` below 16. -/
theorem hexVal_hexChar16 (m : Nat) (h : m < 16) : hexVal (hexChar16 m) = some m := by
  interval_cases m <;> decide

/-- Every character of `natDigitsRev n` is a digit. -/
theorem natDigitsRev_digits (n : Nat) : ∀ c ∈ natDigitsRev n, c.isDigit = true := by
  induction n using Nat.strong_induction_on with
  | _ n ih =>
    intro c hc
    rw [natDigitsRev] at hc
    by_cases h : n = 0
    · simp [h] at hc
    · rw [dif_neg h] at hc
      rcases List.mem_cons.mp hc with h1 | h2
      · subst h1
        exact digitChar10_isDigit _ (Nat.mod_lt _ (by decide))
      · exact ih (n / 10) (Nat.div_lt_self (Nat.pos_of_ne_zero h) (by decide)) c h2

/-- `natDigitsRev` of a nonzero number is nonempty. -/
theorem natDigitsRev_ne_nil (n : Nat) (h : n ≠ 0) : natDigitsRev n ≠ [] := by
  rw [natDigitsRev, dif_neg h]
  simp

/-- Folding the digit-accumulation step over the digits of `n` (most
significant first) starting from `acc` yields `acc` shifted past them plus `n`. -/
theorem foldl_natDigitsRev (n : Nat) : ∀ acc : Nat,
    List.foldl digStep acc (natDigitsRev n).reverse
      = acc * 10 ^ (natDigitsRev n).length + n := by
  induction n using Nat.strong_induction_on with
  | _ n ih =>
    intro acc
    by_cases h : n = 0
    · subst h
      rw [natDigitsRev]
      simp
    · rw [natDigitsRev, dif_neg h, List.reverse_cons, List.foldl_append]
      rw [ih (n / 10) (Nat.div_lt_self (Nat.pos_of_ne_zero h) (by decide)) acc]
      have hm : (digitChar10 (n % 10)).toNat = 48 + n % 10 :=
        digitChar10_toNat _ (Nat.mod_lt _ (by decide))
      simp only [List.foldl, digStep, hm, List.length_cons]
      have hdm := Nat.div_add_mod n 10
      ring_nf
      omega

/-- Every character of `encNat n` is a digit. -/
theorem encNat_digits (n : Nat) : ∀ c ∈ encNat n, c.isDigit = true := by
  intro c hc
  unfold encNat at hc
  by_cases h : n = 0
  · rw [if_pos h] at hc
    simp at hc
    subst hc
    decide
  · rw [if_neg h] at hc
    exact natDigitsRev_digits n c (List.mem_reverse.mp hc)

/-- `encNat n` is nonempty. -/
theorem encNat_ne_nil (n : Nat) : encNat n ≠ [] := by
  unfold encNat
  by_cases h : n = 0
  · simp [h]
  · rw [if_neg h]
    intro heq
    exact natDigitsRev_ne_nil n h (by simpa using heq)

/-- Folding the digit-accumulation step from 0 over `encNat n` recovers `n`. -/
theorem encNat_val (n : Nat) : List.foldl digStep 0 (encNat n) = n := by
  unfold encNat
  by_cases h : n = 0
  · subst h
    simp [digStep]
  · rw [if_neg h, foldl_natDigitsRev n 0]
    simp

/-- `decDigits` consumes exactly a run of digits, folding their values. -/
theorem decDigits_append (ds : List Char) : ∀ (rest : List Char) (acc : Nat),
    (∀ c ∈ ds, c.isDigit = true) → noDigitHead rest →
    decDigits (ds ++ rest) acc = (List.foldl digStep acc ds, rest) := by
  induction ds with
  | nil =>
    intro rest acc _ hr
    cases rest with
    | nil => simp [decDigits]
    | cons c r =>
      have hr' : c.isDigit = false := hr
      simp [decDigits, hr']
  | cons c ds ih =>
    intro rest acc hd hr
    have hc : c.isDigit = true := hd c (List.mem_cons_self c ds)
    have hds : ∀ x ∈ ds, x.isDigit = true := fun x hx => hd x (List.mem_cons_of_mem c hx)
    simp only [List.cons_append, decDigits, hc, if_true, List.foldl_cons, List.append_eq]
    rw [ih rest _ hds hr]
    rfl

/-- `encNat n` exposed as a digit followed by digits. -/
theorem encNat_cons (n : Nat) :
    ∃ d ds, encNat n = d :: ds ∧ d.isDigit = true ∧ ∀ c ∈ ds, c.isDigit = true := by
  cases hE : encNat n with
  | nil => exact absurd hE (encNat_ne_nil n)
  | cons d ds =>
    have hall := encNat_digits n
    rw [hE] at hall
    exact ⟨d, ds, rfl, hall d (List.mem_cons_self d ds),
      fun c hc => hall c (List.mem_cons_of_mem d hc)⟩

/-- `decNum` inverts `encNat` on the encoded digits of a natural number. -/
theorem decNum_encNat (n : Nat) (rest : List Char) (hr : noDigitHead rest) :
    decNum (encNat n ++ rest) = some ((n : Int), rest) := by
  obtain ⟨d, ds, hE, hd, hds⟩ := encNat_cons n
  rw [hE]
  have hneg : d ≠ '-' := isDigit_ne '-' hd (by decide)
  simp only [List.cons_append, decNum]
  rw [if_neg hneg, if_pos hd]
  rw [decDigits_append ds rest (d.toNat - 48) hds hr]
  have hv : List.foldl digStep (d.toNat - 48) ds = n := by
    have h0 : digStep 0 d = d.toNat - 48 := by simp [digStep]
    have hval := encNat_val n
    rw [hE, List.foldl_cons, h0] at hval
    exact hval
  rw [hv]

/-- `decNum` inverts `encInt`. -/
theorem decNum_encInt (i : Int) (rest : List Char) (hr : noDigitHead rest) :
    decNum (encInt i ++ rest) = some (i, rest) := by
  by_cases h : i < 0
  · have hE2 : encInt i = '-' :: encNat i.natAbs := by
      unfold encInt
      rw [if_pos h]
    obtain ⟨d, ds, hE, hd, hds⟩ := encNat_cons i.natAbs
    rw [hE2, hE]
    rw [show decNum (('-' :: d :: ds) ++ rest)
        = if d.isDigit then
            some (-(((decDigits (ds ++ rest) (d.toNat - 48)).1 : Nat) : Int),
              (decDigits (ds ++ rest) (d.toNat - 48)).2)
          else none from rfl]
    rw [if_pos hd]
    rw [decDigits_append ds rest (d.toNat - 48) hds hr]
    have hv : List.foldl digStep (d.toNat - 48) ds = i.natAbs := by
      have h0 : digStep 0 d = d.toNat - 48 := by simp [digStep]
      have hval := encNat_val i.natAbs
      rw [hE, List.foldl_cons, h0] at hval
      exact hval
    show some (-((List.foldl digStep (d.toNat - 48) ds : Nat) : Int), rest) = some (i, rest)
    rw [hv]
    have hni : -((i.natAbs : Nat) : Int) = i := by omega
    rw [hni]
  · have hE2 : encInt i = encNat i.toNat := by
      unfold encInt
      rw [if_neg h]
    rw [hE2, decNum_encNat i.toNat rest hr]
    have hit : ((i.toNat : Nat) : Int) = i := by omega
    rw [hit]

/-- One-step unfolding of `decChars` on a cons cell. -/
theorem decChars_cons (c : Char) (rest : List Char) :
    decChars (c :: rest)
      = if c = '"' then some ([], rest)
        else if c = '\\' then
          match rest with
          | [] => none
          | e :: rest2 =>
            if e = '"' then (decChars rest2).map (fun p => ('"' :: p.1, p.2))
            else if e = '\\' then (decChars rest2).map (fun p => ('\\' :: p.1, p.2))
            else if e = 'u' then
              match rest2 with
              | d1 :: d2 :: d3 :: d4 :: rest3 =>
                match hexVal d1, hexVal d2, hexVal d3, hexVal d4 with
                | some h1, some h2, some h3, some h4 =>
                  (decChars rest3).map
                    (fun p => (Char.ofNat (((h1 * 16 + h2) * 16 + h3) * 16 + h4) :: p.1, p.2))
                | _, _, _, _ => none
              | _ => none
            else none
        else (decChars rest).map (fun p => (c :: p.1, p.2)) := by
  rw [decChars.eq_def]

/-- `decChars` at an (unescaped) closing quote. -/
theorem decChars_quote (r : List Char) : decChars ('"' :: r) = some ([], r) := by
  rw [decChars_cons]
  simp

/-- `decChars` at an escaped quote. -/
theorem decChars_escQuote (r : List Char) :
    decChars ('\\' :: '"' :: r) = (decChars r).map (fun p => ('"' :: p.1, p.2)) := by
  rw [decChars_cons]
  simp

/-- `decChars` at an escaped backslash. -/
theorem decChars_escBack (r : List Char) :
    decChars ('\\' :: '\\' :: r) = (decChars r).map (fun p => ('\\' :: p.1, p.2)) := by
  rw [decChars_cons]
  simp

/-- `decChars` at a `\uXXXX` escape whose digits all parse. -/
theorem decChars_escU4 (d1 d2 d3 d4 : Char) (h1 h2 h3 h4 : Nat) (r : List Char)
    (e1 : hexVal d1 = some h1) (e2 : hexVal d2 = some h2) (e3 : hexVal d3 = some h3)
    (e4 : hexVal d4 = some h4) :
    decChars ('\\' :: 'u' :: d1 :: d2 :: d3 :: d4 :: r)
      = (decChars r).map
          (fun p => (Char.ofNat (((h1 * 16 + h2) * 16 + h3) * 16 + h4) :: p.1, p.2)) := by
  have hstep : decChars ('\\' :: 'u' :: d1 :: d2 :: d3 :: d4 :: r)
      = match hexVal d1, hexVal d2, hexVal d3, hexVal d4 with
        | some a1, some a2, some a3, some a4 =>
          (decChars r).map
            (fun p => (Char.ofNat (((a1 * 16 + a2) * 16 + a3) * 16 + a4) :: p.1, p.2))
        | _, _, _, _ => none := rfl
  rw [hstep, e1, e2, e3, e4]

/-- `decChars` at a `\u00XX` escape built from two hex digits. -/
theorem decChars_escU (hi lo : Nat) (hhi : hi < 16) (hlo : lo < 16) (r : List Char) :
    decChars ('\\' :: 'u' :: '0' :: '0' :: hexChar16 hi :: hexChar16 lo :: r)
      = (decChars r).map (fun p => (Char.ofNat (hi * 16 + lo) :: p.1, p.2)) := by
  rw [decChars_escU4 '0' '0' (hexChar16 hi) (hexChar16 lo) 0 0 hi lo r
    (by decide) (by decide) (hexVal_hexChar16 hi hhi) (hexVal_hexChar16 lo hlo)]
  have harith : ((0 * 16 + 0) * 16 + hi) * 16 + lo = hi * 16 + lo := by ring
  simp only [harith]

/-- `decChars` at an unescaped ordinary character. -/
theorem decChars_verbatim (c : Char) (r : List Char) (h1 : c ≠ '"') (h2 : c ≠ '\\') :
    decChars (c :: r) = (decChars r).map (fun p => (c :: p.1, p.2)) := by
  rw [decChars_cons]
  rw [if_neg h1, if_neg h2]

/-- `decChars` inverts the escaping encoder on a string body followed by the
closing quote. -/
theorem decChars_esc (l : List Char) : ∀ rest : List Char,
    decChars (l.flatMap escChar ++ ('"' :: rest)) = some (l, rest) := by
  induction l with
  | nil =>
    intro rest
    simp only [List.flatMap_nil, List.nil_append]
    exact decChars_quote rest
  | cons c cs ih =>
    intro rest
    rw [List.flatMap_cons, List.append_assoc]
    by_cases h1 : c = '"'
    · subst h1
      rw [show escChar '"' = ['\\', '"'] from rfl]
      simp only [List.cons_append, List.nil_append]
      rw [decChars_escQuote, ih rest]
      rfl
    · by_cases h2 : c = '\\'
      · subst h2
        rw [show escChar '\\' = ['\\', '\\'] from rfl]
        simp only [List.cons_append, List.nil_append]
        rw [decChars_escBack, ih rest]
        rfl
      · by_cases h3 : c.toNat < 32
        · have he : escChar c
              = ['\\', 'u', '0', '0', hexChar16 (c.toNat / 16), hexChar16 (c.toNat % 16)] := by
            unfold escChar
            rw [if_neg h1, if_neg h2, if_pos h3]
          rw [he]
          simp only [List.cons_append, List.nil_append]
          rw [decChars_escU (c.toNat / 16) (c.toNat % 16) (by omega)
            (Nat.mod_lt _ (by decide)) _]
          rw [ih rest]
          have hc : c.toNat / 16 * 16 + c.toNat % 16 = c.toNat := by omega
          rw [hc, Char.ofNat_toNat]
          rfl
        · have he : escChar c = [c] := by
            unfold escChar
            rw [if_neg h1, if_neg h2, if_neg h3]
          rw [he]
          simp only [List.cons_append, List.nil_append]
          rw [decChars_verbatim c _ h1 h2, ih rest]
          rfl

/-- `noDigitHead` holds of any input starting with a non-digit. -/
theorem noDigitHead_cons (c : Char) (r : List Char) (h : c.isDigit = false) :
    noDigitHead (c :: r) := h

/-- `encInt i` exposed as a minus sign or digit followed by the rest. -/
theorem encInt_cons (i : Int) :
    ∃ d ds, encInt i = d :: ds ∧ (d = '-' ∨ d.isDigit = true) := by
  unfold encInt
  by_cases h : i < 0
  · rw [if_pos h]
    exact ⟨'-', encNat i.natAbs, rfl, Or.inl rfl⟩
  · rw [if_neg h]
    obtain ⟨d, ds, hE, hd, _⟩ := encNat_cons i.toNat
    exact ⟨d, ds, hE, Or.inr hd⟩

/-- A character starting an encoded number is none of the other value-start
characters recognised by `decVal`. -/
theorem numStart_ne (d : Char) (h : d = '-' ∨ d.isDigit = true) :
    d ≠ 'n' ∧ d ≠ 't' ∧ d ≠ 'f' ∧ d ≠ '"' ∧ d ≠ '[' ∧ d ≠ '\x7b' := by
  rcases h with h | h
  · subst h
    exact ⟨by decide, by decide, by decide, by decide, by decide, by decide⟩
  · exact ⟨isDigit_ne 'n' h (by decide), isDigit_ne 't' h (by decide),
      isDigit_ne 'f' h (by decide), isDigit_ne '"' h (by decide),
      isDigit_ne '[' h (by decide), isDigit_ne '\x7b' h (by decide)⟩

/-- The first character of an encoded value is never a closing bracket. -/
theorem encVal_head (v : JVal) : ∃ c cs, encVal v = c :: cs ∧ c ≠ ']' := by
  cases v with
  | jnull => exact ⟨'n', ['u', 'l', 'l'], by simp [encVal], by decide⟩
  | jbool b =>
    cases b with
    | false => exact ⟨'f', ['a', 'l', 's', 'e'], by simp [encVal], by decide⟩
    | true => exact ⟨'t', ['r', 'u', 'e'], by simp [encVal], by decide⟩
  | jnum i =>
    obtain ⟨d, ds, hE, hd⟩ := encInt_cons i
    refine ⟨d, ds, by simp [encVal, hE], ?_⟩
    rcases hd with h | h
    · subst h
      decide
    · exact isDigit_ne ']' h (by decide)
  | jstr s =>
    exact ⟨'"', s.data.flatMap escChar ++ ['"'], by simp [encVal, encStr], by decide⟩
  | jarr xs => exact ⟨'[', encList xs ++ [']'], by simp [encVal], by decide⟩
  | jobj fs => exact ⟨'\x7b', encFields fs ++ ['\x7d'], by simp [encVal], by decide⟩

/-- Every value needs at least one unit of fuel. -/
theorem one_le_sizeV (v : JVal) : 1 ≤ sizeV v := by
  cases v <;> simp [sizeV]

/-- Every element list needs at least one unit of fuel. -/
theorem one_le_sizeE (xs : List JVal) : 1 ≤ sizeE xs := by
  cases xs with
  | nil => simp [sizeE]
  | cons x t =>
    cases t with
    | nil => simp [sizeE]
    | cons y t2 => simp [sizeE]

/-- Every field list needs at least one unit of fuel. -/
theorem one_le_sizeF (fs : List (String × JVal)) : 1 ≤ sizeF fs := by
  cases fs with
  | nil => simp [sizeF]
  | cons p t =>
    obtain ⟨k, v⟩ := p
    cases t with
    | nil => simp [sizeF]
    | cons q t2 => simp [sizeF]

/-- The fuelled parser inverts the encoder: with enough fuel, `decVal` parses
`encVal v` back to `v` (and `decElems`/`decFields` parse encoded element and
field lists up to their closing bracket or brace). -/
theorem dec_enc (fuel : Nat) :
    (∀ (v : JVal) (rest : List Char), sizeV v ≤ fuel → noDigitHead rest →
      decVal fuel (encVal v ++ rest) = some (v, rest))
    ∧ (∀ (xs : List JVal) (rest : List Char), sizeE xs ≤ fuel →
      decElems fuel (encList xs ++ (']' :: rest)) = some (xs, rest))
    ∧ (∀ (fs : List (String × JVal)) (rest : List Char), sizeF fs ≤ fuel →
      decFields fuel (encFields fs ++ ('\x7d' :: rest)) = some (fs, rest)) := by
  induction fuel with
  | zero =>
    refine ⟨fun v rest hs _ => absurd hs ?_, fun xs rest hs => absurd hs ?_,
      fun fs rest hs => absurd hs ?_⟩
    · have := one_le_sizeV v
      omega
    · have := one_le_sizeE xs
      omega
    · have := one_le_sizeF fs
      omega
  | succ f ih =>
    obtain ⟨ihV, ihE, ihF⟩ := ih
    refine ⟨?_, ?_, ?_⟩
    · intro v rest hs hr
      cases v with
      | jnull => simp [encVal, decVal, matchLit]
      | jbool b => cases b <;> simp [encVal, decVal, matchLit]
      | jnum i =>
        obtain ⟨d, ds, hE, hd⟩ := encInt_cons i
        obtain ⟨hn1, hn2, hn3, hn4, hn5, hn6⟩ := numStart_ne d hd
        have hnum : decNum (d :: (ds ++ rest)) = some (i, rest) := by
          rw [show d :: (ds ++ rest) = encInt i ++ rest from by rw [hE]; rfl]
          exact decNum_encInt i rest hr
        rw [show encVal (JVal.jnum i) = encInt i from by simp [encVal], hE]
        simp only [List.cons_append]
        simp [decVal, hn1, hn2, hn3, hn4, hn5, hn6, hnum]
      | jstr s =>
        have hdc : decChars (s.data.flatMap escChar ++ ('"' :: rest))
            = some (s.data, rest) := decChars_esc s.data rest
        simp [encVal, encStr, decVal, hdc, string_mk_data]
      | jarr xs =>
        have hsz : sizeE xs ≤ f := by
          simp [sizeV] at hs
          omega
        have harr : decElems f (encList xs ++ (']' :: rest)) = some (xs, rest) :=
          ihE xs rest hsz
        simp [encVal, decVal, harr]
      | jobj fs =>
        have hsz : sizeF fs ≤ f := by
          simp [sizeV] at hs
          omega
        have hobj : decFields f (encFields fs ++ ('\x7d' :: rest)) = some (fs, rest) :=
          ihF fs rest hsz
        simp [encVal, decVal, hobj]
    · intro xs rest hs
      cases xs with
      | nil => simp [encList, decElems]
      | cons x t =>
        obtain ⟨c, cs, hE, hc⟩ := encVal_head x
        cases t with
        | nil =>
          have hx : sizeV x ≤ f := by
            simp [sizeE] at hs
            omega
          have hv' : decVal f (c :: (cs ++ (']' :: rest))) = some (x, ']' :: rest) := by
            rw [show c :: (cs ++ (']' :: rest)) = encVal x ++ (']' :: rest) from by
              rw [hE]; rfl]
            exact ihV x (']' :: rest) hx (noDigitHead_cons ']' rest (by decide))
          rw [show encList [x] = encVal x from by simp [encList], hE]
          simp only [List.cons_append]
          simp [decElems, hc, hv']
        | cons y t2 =>
          have hmax : max (sizeV x) (sizeE (y :: t2)) ≤ f := by
            simp [sizeE] at hs
            omega
          have hx : sizeV x ≤ f := le_trans (Nat.le_max_left _ _) hmax
          have ht : sizeE (y :: t2) ≤ f := le_trans (Nat.le_max_right _ _) hmax
          have hrest : decElems f (encList (y :: t2) ++ (']' :: rest))
              = some (y :: t2, rest) := ihE (y :: t2) rest ht
          have hv' : decVal f (c :: (cs ++ (',' :: (encList (y :: t2) ++ (']' :: rest)))))
              = some (x, ',' :: (encList (y :: t2) ++ (']' :: rest))) := by
            rw [show c :: (cs ++ (',' :: (encList (y :: t2) ++ (']' :: rest))))
                = encVal x ++ (',' :: (encList (y :: t2) ++ (']' :: rest))) from by
              rw [hE]; rfl]
            exact ihV x _ hx (noDigitHead_cons ',' _ (by decide))
          rw [show encList (x :: y :: t2) = encVal x ++ ',' :: encList (y :: t2) from by
            simp [encList], hE]
          simp only [List.cons_append, List.append_assoc]
          simp [decElems, hc, hv', hrest]
    · intro fs rest hs
      cases fs with
      | nil => simp [encFields, decFields]
      | cons p t =>
        obtain ⟨k, v⟩ := p
        cases t with
        | nil =>
          have hv0 : sizeV v ≤ f := by
            simp [sizeF] at hs
            omega
          have hval : decVal f (encVal v ++ ('\x7d' :: rest)) = some (v, '\x7d' :: rest) :=
            ihV v _ hv0 (noDigitHead_cons '\x7d' _ (by decide))
          have hkey : decChars (k.data.flatMap escChar
                ++ ('"' :: (':' :: (encVal v ++ ('\x7d' :: rest)))))
              = some (k.data, ':' :: (encVal v ++ ('\x7d' :: rest))) := by
            exact decChars_esc k.data _
          rw [show encFields [(k, v)] = encStr k ++ ':' :: encVal v from by simp [encFields]]
          simp only [encStr, List.cons_append, List.append_assoc, List.singleton_append]
          simp [decFields, hkey, hval, string_mk_data]
        | cons q t2 =>
          have hmax : max (sizeV v) (sizeF (q :: t2)) ≤ f := by
            simp [sizeF] at hs
            omega
          have hv0 : sizeV v ≤ f := le_trans (Nat.le_max_left _ _) hmax
          have htf : sizeF (q :: t2) ≤ f := le_trans (Nat.le_max_right _ _) hmax
          have hrest : decFields f (encFields (q :: t2) ++ ('\x7d' :: rest))
              = some (q :: t2, rest) := ihF (q :: t2) rest htf
          have hval : decVal f (encVal v ++ (',' :: (encFields (q :: t2) ++ ('\x7d' :: rest))))
              = some (v, ',' :: (encFields (q :: t2) ++ ('\x7d' :: rest))) :=
            ihV v _ hv0 (noDigitHead_cons ',' _ (by decide))
          have hkey : decChars (k.data.flatMap escChar
                ++ ('"' :: (':' :: (encVal v ++ (',' :: (encFields (q :: t2) ++ ('\x7d' :: rest)))))))
              = some (k.data, ':' :: (encVal v ++ (',' :: (encFields (q :: t2) ++ ('\x7d' :: rest))))) := by
            exact decChars_esc k.data _
          rw [show encFields ((k, v) :: q :: t2)
              = encStr k ++ ':' :: encVal v ++ ',' :: encFields (q :: t2) from by
            simp [encFields]]
          simp only [encStr, List.cons_append, List.append_assoc, List.singleton_append]
          simp [decFields, hkey, hval, hrest, string_mk_data]

/-- Encoded values are nonempty. -/
theorem encVal_length_pos (v : JVal) : 1 ≤ (encVal v).length := by
  obtain ⟨c, cs, hE, _⟩ := encVal_head v
  rw [hE]
  simp

/-- The fuel needed for an element list is bounded by its encoding length. -/
theorem sizeE_le : ∀ (xs : List JVal), (∀ x ∈ xs, sizeV x ≤ (encVal x).length) →
    sizeE xs ≤ (encList xs).length + 1 := by
  intro xs
  induction xs with
  | nil =>
    intro _
    simp [sizeE, encList]
  | cons x t ih =>
    intro h
    cases t with
    | nil =>
      have h1 := h x (by simp)
      simp [sizeE, encList]
      omega
    | cons y t2 =>
      have h1 := h x (by simp)
      have h2 := ih (fun z hz => h z (List.mem_cons_of_mem x hz))
      have h3 : 1 ≤ (encVal x).length := encVal_length_pos x
      simp [sizeE, encList, List.length_append]
      have hm : max (sizeV x) (sizeE (y :: t2))
          ≤ (encVal x).length + (encList (y :: t2)).length + 1 :=
        Nat.max_le.mpr ⟨by omega, by omega⟩
      omega

/-- The fuel needed for a field list is bounded by its encoding length. -/
theorem sizeF_le : ∀ (fs : List (String × JVal)),
    (∀ p ∈ fs, sizeV p.2 ≤ (encVal p.2).length) →
    sizeF fs ≤ (encFields fs).length + 1 := by
  intro fs
  induction fs with
  | nil =>
    intro _
    simp [sizeF, encFields]
  | cons p t ih =>
    intro h
    obtain ⟨k, v⟩ := p
    have h1 := h (k, v) (by simp)
    simp only [] at h1
    cases t with
    | nil =>
      simp [sizeF, encFields, List.length_append]
      omega
    | cons q t2 =>
      have h2 := ih (fun z hz => h z (List.mem_cons_of_mem _ hz))
      simp [sizeF, encFields, List.length_append]
      have hm : max (sizeV v) (sizeF (q :: t2))
          ≤ (encVal v).length + (encFields (q :: t2)).length + 1 :=
        Nat.max_le.mpr ⟨by omega, by omega⟩
      omega

/-- The fuel needed for a value is bounded by its encoding length. -/
theorem sizeV_le_encVal (v : JVal) : sizeV v ≤ (encVal v).length := by
  suffices H : ∀ (n : Nat) (w : JVal), sizeOf w ≤ n → sizeV w ≤ (encVal w).length from
    H (sizeOf v) v le_rfl
  intro n
  induction n using Nat.strong_induction_on with
  | _ n ih =>
    intro w hw
    cases w with
    | jnull => simp [sizeV, encVal]
    | jbool b => cases b <;> simp [sizeV, encVal]
    | jnum i =>
      have hp := encVal_length_pos (JVal.jnum i)
      simp [sizeV]
      omega
    | jstr s =>
      have hp := encVal_length_pos (JVal.jstr s)
      simp [sizeV]
      omega
    | jarr xs =>
      have hx : ∀ x ∈ xs, sizeV x ≤ (encVal x).length := by
        intro x hxm
        refine ih (sizeOf x) ?_ x le_rfl
        have m1 : sizeOf x < sizeOf xs := List.sizeOf_lt_of_mem hxm
        have m2 : sizeOf (JVal.jarr xs) = 1 + sizeOf xs := by simp
        omega
      have hB := sizeE_le xs hx
      simp [sizeV, encVal, List.length_append]
      omega
    | jobj fs =>
      have hx : ∀ p ∈ fs, sizeV p.2 ≤ (encVal p.2).length := by
        intro p hp
        refine ih (sizeOf p.2) ?_ p.2 le_rfl
        have m1 : sizeOf p < sizeOf fs := List.sizeOf_lt_of_mem hp
        have m2 : sizeOf (JVal.jobj fs) = 1 + sizeOf fs := by simp
        have m3 : sizeOf p.2 < sizeOf p := by
          obtain ⟨a, b⟩ := p
          simp
        omega
      have hB := sizeF_le fs hx
      simp [sizeV, encVal, List.length_append]
      omega

/-- C7: serialize-then-deserialize is a round trip — for every value composed
of primitives, sequences and string-keyed mappings, `fromJSON` applied to any
capability set `p` and to `getJSON v` succeeds and returns an object carrying
exactly the attribute values `v` (with `p` attached as its behavior bundle). -/
theorem claim_C7 : ∀ {P : Type} (p : P) (v : JVal),
    fromJSON p (getJSON v) = Except.ok ⟨p, v⟩ := by
  intro P p v
  have hlen : (getJSON v).length = (encVal v).length := rfl
  have hdata : (getJSON v).data = encVal v := rfl
  have hfuel : sizeV v ≤ (encVal v).length + 1 := by
    have := sizeV_le_encVal v
    omega
  have hmain := (dec_enc ((encVal v).length + 1)).1 v [] hfuel trivial
  rw [List.append_nil] at hmain
  unfold fromJSON parseJSON
  rw [hlen, hdata, hmain]
